import Mathlib

/-!
Shallow embedding of `homeassistant/components/matrix/__init__.py` (the
`MatrixBot` component): command-table construction (`MatrixBot.__init__`),
the room-message handler (`_handle_room_message`), the join-or-get room
resolver (`_join_or_get_room`), the login fallback (`_login`,
`_login_by_password`) and the outbound send loop (`_send_message`).

Python dicts are modelled as association lists with replace-or-append
insertion and first-match lookup (Python dicts have unique keys, preserve
insertion order, and overwrite the value in place on re-assignment).
-/

/-- Lookup in a Python-dict model: first (unique) binding of the key. -/
def dictGet {α : Type} : List (String × α) → String → Option α
  | [], _ => none
  | (k, v) :: rest, key => if k = key then some v else dictGet rest key

/-- Assignment `d[key] = val` in a Python-dict model: replace the value at an
existing key in place, otherwise append a new binding. -/
def dictInsert {α : Type} : List (String × α) → String → α → List (String × α)
  | [], key, val => [(key, val)]
  | (k, v) :: rest, key, val =>
    if k = key then (key, val) :: rest else (k, v) :: dictInsert rest key val

theorem dictGet_insert {α : Type} (m : List (String × α)) (k k' : String) (v : α) :
    dictGet (dictInsert m k v) k' = if k = k' then some v else dictGet m k' := by
  induction m with
  | nil => simp [dictInsert, dictGet]
  | cons p rest ih =>
    obtain ⟨pk, pv⟩ := p
    by_cases h1 : pk = k
    · subst h1
      by_cases h2 : pk = k' <;> simp [dictInsert, dictGet, h2]
    · by_cases h2 : pk = k'
      · subst h2
        have hkk : ¬ k = pk := fun h => h1 h.symm
        simp [dictInsert, dictGet, h1, hkk]
      · simp [dictInsert, dictGet, h1, h2, ih]

/-- Model of a compiled regular expression as handed to the router by the
external `re` library (the source stores the compiled object opaquely in the
command dict and only ever calls its `.match` method).  The fragment covers
the empty pattern, literal characters, concatenation, alternation and named
groups; `.match`-style semantics (anchored at the start, accepting any
matching prefix) are given by `Pattern.matchFrom` below. -/
inductive Pattern : Type where
  | emp : Pattern
  | lit : Char → Pattern
  | seq : Pattern → Pattern → Pattern
  | alt : Pattern → Pattern → Pattern
  | group : String → Pattern → Pattern
deriving DecidableEq

/-- Anchored matcher: consume some prefix of the input, return the remaining
suffix together with the named captures (`groupdict` of the branch taken). -/
def Pattern.matchFrom : Pattern → List Char → Option (List Char × List (String × String))
  | .emp, cs => some (cs, [])
  | .lit c, cs =>
    match cs with
    | [] => none
    | d :: cs' => if d = c then some (cs', []) else none
  | .seq p q, cs =>
    match p.matchFrom cs with
    | none => none
    | some (rest, caps1) =>
      match q.matchFrom rest with
      | none => none
      | some (rest2, caps2) => some (rest2, caps1 ++ caps2)
  | .alt p q, cs =>
    match p.matchFrom cs with
    | some r => some r
    | none => q.matchFrom cs
  | .group n p, cs =>
    match p.matchFrom cs with
    | none => none
    | some (rest, caps) =>
      some (rest, caps ++ [(n, String.mk (cs.take (cs.length - rest.length)))])

/-- `pattern.match(body)` of the Python `re` module: anchored at position 0,
returns the named-capture dictionary on success. -/
def pyMatch (p : Pattern) (s : String) : Option (List (String × String)) :=
  (p.matchFrom s.data).map Prod.snd

/-- A successful anchored match consumes a prefix of the input: the remaining
suffix really is a suffix (so matching is a prefix match, not a full-string
match). -/
theorem matchFrom_consumes (p : Pattern) :
    ∀ cs rest caps, p.matchFrom cs = some (rest, caps) →
      ∃ pre, pre ++ rest = cs := by
  induction p with
  | emp =>
    intro cs rest caps h
    simp [Pattern.matchFrom] at h
    exact ⟨[], by simp [h.1]⟩
  | lit c =>
    intro cs rest caps h
    match cs with
    | [] => simp [Pattern.matchFrom] at h
    | d :: cs' =>
      simp [Pattern.matchFrom] at h
      obtain ⟨hd, hrest, -⟩ := h
      exact ⟨[d], by simp [hrest]⟩
  | seq p q ihp ihq =>
    intro cs rest caps h
    simp [Pattern.matchFrom] at h
    match hp : p.matchFrom cs with
    | none => simp [hp] at h
    | some (rest1, caps1) =>
      simp [hp] at h
      match hq : q.matchFrom rest1 with
      | none => simp [hq] at h
      | some (rest2, caps2) =>
        simp [hq] at h
        obtain ⟨pre1, hpre1⟩ := ihp cs rest1 caps1 hp
        obtain ⟨pre2, hpre2⟩ := ihq rest1 rest2 caps2 hq
        exact ⟨pre1 ++ pre2, by rw [List.append_assoc, ← h.1, hpre2, hpre1]⟩
  | alt p q ihp ihq =>
    intro cs rest caps h
    simp [Pattern.matchFrom] at h
    match hp : p.matchFrom cs with
    | some (rest1, caps1) =>
      simp [hp] at h
      exact h.1 ▸ ihp cs rest1 caps1 hp
    | none =>
      simp [hp] at h
      exact ihq cs rest caps h
  | group n p ihp =>
    intro cs rest caps h
    simp [Pattern.matchFrom] at h
    match hp : p.matchFrom cs with
    | none => simp [hp] at h
    | some (rest1, caps1) =>
      simp [hp] at h
      exact h.1 ▸ ihp cs rest1 caps1 hp

/-- A configured command dict after schema validation: an optional word
trigger (`CONF_WORD`), an optional compiled expression (`CONF_EXPRESSION`),
a required name (`CONF_NAME`) and a room list (`CONF_ROOMS`, default `[]`). -/
structure Command : Type where
  word : Option String
  expression : Option Pattern
  name : String
  rooms : List String
deriving DecidableEq

/-- Truthiness of `command.get(CONF_WORD)` in Python: the key is present and
its value is a non-empty string. -/
def truthyWord (c : Command) : Bool :=
  match c.word with
  | some w => w ≠ ""
  | none => false

/-- The mutation `command[CONF_ROOMS] = listening_rooms` guarded by
`if not command.get(CONF_ROOMS)`: a command with a falsy (empty) room list
receives the listening-room list, once, at construction time. -/
def effCommand (listening : List String) (c : Command) : Command :=
  if c.rooms = [] then { c with rooms := listening } else c

/-- `self._word_commands`: dict of dicts, room id to (word to command). -/
def WordIndex : Type := List (String × List (String × Command))

/-- `self._expression_commands`: dict of lists, room id to command list. -/
def ExprIndex : Type := List (String × List Command)

/-- The word-command branch of the registration loop in `MatrixBot.__init__`:
for each room id of the command, ensure the inner dict exists and assign the
command under its trigger word (overwriting any previous binding). -/
def registerWord (wi : WordIndex) (c : Command) (w : String) (rooms : List String) :
    WordIndex :=
  rooms.foldl (fun wi r => dictInsert wi r (dictInsert ((dictGet wi r).getD []) w c)) wi

/-- The expression branch of the registration loop in `MatrixBot.__init__`:
for each room id of the command, ensure the room's list exists and append the
command to it. -/
def registerExpr (ei : ExprIndex) (c : Command) (rooms : List String) : ExprIndex :=
  rooms.foldl (fun ei r => dictInsert ei r (((dictGet ei r).getD []) ++ [c])) ei

/-- One iteration of the `for command in commands` loop in
`MatrixBot.__init__`: default the room scope to the listening rooms, then
register the command in the word index (if `command.get(CONF_WORD)` is
truthy) or in the expression index (otherwise). -/
def registerCommand (listening : List String) (idx : WordIndex × ExprIndex)
    (c : Command) : WordIndex × ExprIndex :=
  if truthyWord (effCommand listening c) then
    (registerWord idx.1 (effCommand listening c)
      ((effCommand listening c).word.getD "") (effCommand listening c).rooms, idx.2)
  else
    (idx.1, registerExpr idx.2 (effCommand listening c) (effCommand listening c).rooms)

/-- The whole registration loop of `MatrixBot.__init__`, starting from the
two empty indices. -/
def buildIndexes (commands : List Command) (listening : List String) :
    WordIndex × ExprIndex :=
  commands.foldl (registerCommand listening) ([], [])

/-- Lookup `self._word_commands.get(room_id, {}).get(cmd)`. -/
def wordLookup (wi : WordIndex) (roomId w : String) : Option Command :=
  match dictGet wi roomId with
  | none => none
  | some d => dictGet d w

/-- Lookup `self._expression_commands.get(room_id, [])`. -/
def exprGet (ei : ExprIndex) (roomId : String) : List Command :=
  (dictGet ei roomId).getD []

/-- The state of a `MatrixBot` that `_handle_room_message` reads: the bot's
own Matrix id and the two command indices built in `__init__`. -/
structure BotConfig : Type where
  mxId : String
  wordCommands : WordIndex
  expressionCommands : ExprIndex

/-- Build a `BotConfig` the way `MatrixBot.__init__` does. -/
def mkBot (mxId : String) (commands : List Command) (listening : List String) :
    BotConfig :=
  ⟨mxId, (buildIndexes commands listening).1, (buildIndexes commands listening).2⟩

/-- An inbound `m.room.message` event as read by `_handle_room_message`:
`event["content"]["msgtype"]`, `event["sender"]`, `event["content"]["body"]`. -/
structure RoomEvent : Type where
  msgtype : String
  sender : String
  body : String
deriving DecidableEq

/-- Arguments attached to a fired `matrix_command` event: the remaining
split tokens for a word command, the named captures for an expression
command. -/
inductive CmdArgs : Type where
  | wordArgs : List String → CmdArgs
  | exprArgs : List (String × String) → CmdArgs
deriving DecidableEq

/-- The `event_data` payload fired on the bus for a matched command. -/
structure CommandEvent : Type where
  command : String
  sender : String
  room : String
  args : CmdArgs
deriving DecidableEq

/-- Python exceptions that `_handle_room_message` can raise. -/
inductive PyError : Type where
  | indexError : PyError
  | keyError : PyError
deriving DecidableEq

/-- Result of running `_handle_room_message`: the `matrix_command` events
fired on the bus, in order, plus the exception (if any) that escaped the
handler after those events were fired. -/
structure HandlerResult : Type where
  fired : List CommandEvent
  error : Option PyError
deriving DecidableEq

/-- Python `str.split(sep)` for a single-character separator, on the
character list: splits at every occurrence of the separator, keeping empty
pieces (so consecutive separators yield empty strings, and the result is
never the empty list). -/
def splitChar (sep : Char) : List Char → List (List Char)
  | [] => [[]]
  | c :: cs =>
    let r := splitChar sep cs
    if c = sep then [] :: r
    else (c :: r.headD []) :: r.tail

/-- Python `body.split(" ")`: split on each single space character. -/
def pySplit (s : String) (sep : Char) : List String :=
  (splitChar sep s.data).map String.mk

/-- Python `s[1:]` on a string. -/
def pyDropOne (s : String) : String :=
  String.mk (s.data.drop 1)

/-- The single-word-command pass of `_handle_room_message`, reached when the
body starts with `'!'`: split the body on spaces, strip the leading `'!'`
from the first piece, look the result up in the word index, and fire one
event with the remaining pieces as args if a command is registered. -/
def wordPass (wi : WordIndex) (roomId sender body : String) : List CommandEvent :=
  match wordLookup wi roomId (pyDropOne ((pySplit body ' ').headD "")) with
  | some command =>
    [⟨command.name, sender, roomId, CmdArgs.wordArgs ((pySplit body ' ').drop 1)⟩]
  | none => []

/-- The expression pass of `_handle_room_message`: walk the room's command
list in order; a command without a stored expression raises `KeyError`
(events fired before the raise stay fired); otherwise fire one event with
the named captures whenever the anchored match succeeds. -/
def exprPass (sender roomId body : String) : List Command → List CommandEvent × Option PyError
  | [] => ([], none)
  | c :: rest =>
    match c.expression with
    | none => ([], some PyError.keyError)
    | some p =>
      match pyMatch p body with
      | none => exprPass sender roomId body rest
      | some caps =>
        let r := exprPass sender roomId body rest
        (⟨c.name, sender, roomId, CmdArgs.exprArgs caps⟩ :: r.1, r.2)

/-- `MatrixBot._handle_room_message`: ignore non-text events and the bot's
own messages, then test `body[0] == "!"` (an `IndexError` on the empty
body), run the word pass, and finally run the expression pass. -/
def handleRoomMessage (bot : BotConfig) (roomId : String) (event : RoomEvent) :
    HandlerResult :=
  if event.msgtype ≠ "m.text" then ⟨[], none⟩
  else if event.sender = bot.mxId then ⟨[], none⟩
  else
    match event.body.data with
    | [] => ⟨[], some PyError.indexError⟩
    | c :: _ =>
      let wordFired :=
        if c = '!' then wordPass bot.wordCommands roomId event.sender event.body
        else []
      let r := exprPass event.sender roomId event.body
        (exprGet bot.expressionCommands roomId)
      ⟨wordFired ++ r.1, r.2⟩

/-- First-some choice on options (helper for last-write-wins reasoning). -/
def optOr {α : Type} : Option α → Option α → Option α
  | some x, _ => some x
  | none, b => b

theorem optOr_none_right {α : Type} (a : Option α) : optOr a none = a := by
  cases a <;> rfl

theorem getLast?_cons_eq_optOr {α : Type} (x : α) (l : List α) :
    (x :: l).getLast? = optOr l.getLast? (some x) := by
  cases l with
  | nil => rfl
  | cons y ys =>
    rw [List.getLast?_cons_cons]
    cases h : (y :: ys).getLast? with
    | none => exact absurd (List.getLast?_eq_none_iff.mp h) (by simp)
    | some z => rfl

theorem wordLookup_eq_dictGet (wi : WordIndex) (r w : String) :
    wordLookup wi r w = dictGet ((dictGet wi r).getD []) w := by
  unfold wordLookup
  cases dictGet wi r <;> simp [dictGet]

theorem effCommand_word (listening : List String) (c : Command) :
    (effCommand listening c).word = c.word := by
  unfold effCommand
  by_cases h : c.rooms = [] <;> simp [h]

theorem effCommand_expression (listening : List String) (c : Command) :
    (effCommand listening c).expression = c.expression := by
  unfold effCommand
  by_cases h : c.rooms = [] <;> simp [h]

theorem truthyWord_eff (listening : List String) (c : Command) :
    truthyWord (effCommand listening c) = truthyWord c := by
  unfold truthyWord
  rw [effCommand_word]

theorem effCommand_idem (listening : List String) (c : Command) :
    effCommand listening (effCommand listening c) = effCommand listening c := by
  unfold effCommand
  by_cases h : c.rooms = []
  · by_cases h2 : listening = [] <;> simp [h, h2]
  · simp [h]

theorem wordLookup_step (wi : WordIndex) (c : Command) (room w r w' : String) :
    wordLookup (dictInsert wi room (dictInsert ((dictGet wi room).getD []) w c)) r w' =
      if room = r ∧ w' = w then some c else wordLookup wi r w' := by
  rw [wordLookup_eq_dictGet, dictGet_insert]
  by_cases h2 : room = r
  · rw [if_pos h2]
    simp only [Option.getD_some]
    rw [dictGet_insert]
    by_cases h3 : w = w'
    · simp [h2, h3.symm]
    · have hcond : ¬ (room = r ∧ w' = w) := fun h => h3 h.2.symm
      rw [if_neg h3, if_neg hcond, h2, wordLookup_eq_dictGet]
  · have hcond : ¬ (room = r ∧ w' = w) := fun h => h2 h.1
    rw [if_neg h2, if_neg hcond, wordLookup_eq_dictGet]

theorem wordLookup_registerWord (c : Command) (w : String) :
    ∀ (rooms : List String) (wi : WordIndex) (r w' : String),
      wordLookup (registerWord wi c w rooms) r w' =
        if r ∈ rooms ∧ w' = w then some c else wordLookup wi r w' := by
  intro rooms
  induction rooms with
  | nil => intro wi r w'; simp [registerWord]
  | cons room rest ih =>
    intro wi r w'
    have hstep : registerWord wi c w (room :: rest) =
        registerWord (dictInsert wi room
          (dictInsert ((dictGet wi room).getD []) w c)) c w rest := by
      simp [registerWord]
    rw [hstep, ih, wordLookup_step]
    rcases Decidable.em (w' = w) with hw | hw
    · rcases Decidable.em (r ∈ rest) with hr | hr
      · have hm : r ∈ room :: rest := List.mem_cons_of_mem _ hr
        simp [hr, hw, hm]
      · rcases Decidable.em (room = r) with hroom | hroom
        · have hm : r ∈ room :: rest := by rw [hroom]; exact List.mem_cons_self _ _
          simp [hr, hw, hroom, hm]
        · have hm : r ∉ room :: rest := by
            intro hmem
            rcases List.mem_cons.mp hmem with h | h
            · exact hroom h.symm
            · exact hr h
          simp [hr, hw, hroom, hm]
    · simp [hw]

theorem exprGet_dictInsert (ei : ExprIndex) (room r : String) (L : List Command) :
    exprGet (dictInsert ei room L) r = if room = r then L else exprGet ei r := by
  unfold exprGet
  rw [dictGet_insert]
  by_cases h : room = r <;> simp [h]

theorem exprGet_registerExpr (c : Command) :
    ∀ (rooms : List String) (ei : ExprIndex) (r : String),
      exprGet (registerExpr ei c rooms) r =
        exprGet ei r ++ List.replicate (rooms.countP (fun x => x = r)) c := by
  intro rooms
  induction rooms with
  | nil => intro ei r; simp [registerExpr, exprGet]
  | cons room rest ih =>
    intro ei r
    have hstep : registerExpr ei c (room :: rest) =
        registerExpr (dictInsert ei room ((exprGet ei room) ++ [c])) c rest := by
      simp [registerExpr, exprGet]
    rw [hstep, ih, exprGet_dictInsert, List.countP_cons]
    by_cases h : room = r
    · subst h
      simp [List.append_assoc, List.replicate_succ]
    · simp [h]

theorem truthyWord_iff (c : Command) :
    truthyWord c = true ↔ ∃ v, c.word = some v ∧ v ≠ "" := by
  cases hw : c.word <;> simp [truthyWord, hw]

/-- A command collides with the `(room, trigger)` slot `(r, w)` when it is a
truthy word command whose effective room list contains `r` and whose trigger
is `w`. -/
def WordHits (listening : List String) (r w : String) (c : Command) : Prop :=
  truthyWord c = true ∧ r ∈ (effCommand listening c).rooms ∧ c.word = some w

instance (listening : List String) (r w : String) (c : Command) :
    Decidable (WordHits listening r w c) := by
  unfold WordHits
  infer_instance

theorem wordLookup_registerCommand (listening : List String)
    (idx : WordIndex × ExprIndex) (c : Command) (r w : String) :
    wordLookup (registerCommand listening idx c).1 r w =
      if WordHits listening r w c then some (effCommand listening c)
      else wordLookup idx.1 r w := by
  unfold registerCommand
  by_cases ht : truthyWord (effCommand listening c) = true
  · rw [if_pos ht]
    obtain ⟨v, hv, hv'⟩ := (truthyWord_iff _).mp ((truthyWord_eff listening c).symm ▸ ht)
    have hcw : (effCommand listening c).word = some v := by rw [effCommand_word, hv]
    rw [wordLookup_registerWord]
    refine if_congr ?_ rfl rfl
    constructor
    · rintro ⟨hm, hww⟩
      refine ⟨(truthyWord_eff listening c) ▸ ht, hm, ?_⟩
      rw [hcw] at hww
      simp only [Option.getD_some] at hww
      rw [hv, hww]
    · rintro ⟨-, hm, hww⟩
      refine ⟨hm, ?_⟩
      rw [hv] at hww
      rw [hcw]
      simp only [Option.getD_some]
      exact (Option.some_inj.mp hww).symm
  · rw [if_neg ht]
    have hcond : ¬ WordHits listening r w c := by
      intro h
      exact ht ((truthyWord_eff listening c).symm ▸ h.1)
    rw [if_neg hcond]

theorem exprGet_registerCommand (listening : List String)
    (idx : WordIndex × ExprIndex) (c : Command) (r : String) :
    exprGet (registerCommand listening idx c).2 r =
      exprGet idx.2 r ++
        (if truthyWord c = true then []
         else List.replicate ((effCommand listening c).rooms.countP (fun x => x = r))
           (effCommand listening c)) := by
  unfold registerCommand
  by_cases ht : truthyWord (effCommand listening c) = true
  · rw [if_pos ht, if_pos ((truthyWord_eff listening c) ▸ ht), List.append_nil]
  · have ht' : ¬ truthyWord c = true := fun h => ht ((truthyWord_eff listening c).symm ▸ h)
    rw [if_neg ht, if_neg ht']
    exact exprGet_registerExpr _ _ _ _

theorem optOr_assoc {α : Type} (a b c : Option α) :
    optOr (optOr a b) c = optOr a (optOr b c) := by
  cases a <;> cases b <;> rfl

/-- Boolean form of the collision predicate over a command whose room scope
has already been expanded. -/
def wordHitsB (r w : String) (c : Command) : Bool :=
  truthyWord c && decide (r ∈ c.rooms) && decide (c.word = some w)

theorem wordHitsB_eff (listening : List String) (r w : String) (c : Command) :
    wordHitsB r w (effCommand listening c) = true ↔ WordHits listening r w c := by
  unfold wordHitsB WordHits
  rw [effCommand_word, truthyWord_eff]
  simp [and_assoc]

/-- The word index built by the whole registration loop, relative to an
arbitrary starting index: the last colliding command wins, commands that do
not collide leave the slot alone. -/
theorem wordLookup_foldRegister (listening : List String) (r w : String) :
    ∀ (cmds : List Command) (idx : WordIndex × ExprIndex),
      wordLookup (cmds.foldl (registerCommand listening) idx).1 r w =
        optOr (((cmds.map (effCommand listening)).filter (wordHitsB r w)).getLast?)
          (wordLookup idx.1 r w) := by
  intro cmds
  induction cmds with
  | nil => intro idx; simp [optOr]
  | cons c cs ih =>
    intro idx
    rw [List.foldl_cons, ih, wordLookup_registerCommand]
    by_cases h : WordHits listening r w c
    · rw [if_pos h]
      rw [List.map_cons, List.filter_cons_of_pos ((wordHitsB_eff listening r w c).mpr h)]
      rw [getLast?_cons_eq_optOr, optOr_assoc]
      rfl
    · rw [if_neg h]
      rw [List.map_cons,
        List.filter_cons_of_neg (fun hb => h ((wordHitsB_eff listening r w c).mp hb))]

theorem registerCommand_eff (listening : List String) (idx : WordIndex × ExprIndex)
    (c : Command) :
    registerCommand listening idx (effCommand listening c) =
      registerCommand listening idx c := by
  unfold registerCommand
  rw [effCommand_idem]

theorem exprGet_nil (r : String) : exprGet ([] : ExprIndex) r = [] := by
  simp [exprGet, dictGet]

/-- `match.groupdict()`-shaped event production for one expression command,
as fired inside the regex loop of `_handle_room_message`. -/
def fireExpr (sender roomId body : String) (c : Command) : Option CommandEvent :=
  match c.expression with
  | none => none
  | some p =>
    (pyMatch p body).map (fun caps => ⟨c.name, sender, roomId, CmdArgs.exprArgs caps⟩)

theorem exprPass_filterMap (sender roomId body : String) :
    ∀ l : List Command, (∀ cmd ∈ l, cmd.expression ≠ none) →
      exprPass sender roomId body l = (l.filterMap (fireExpr sender roomId body), none) := by
  intro l
  induction l with
  | nil => intro h; rfl
  | cons c rest ih =>
    intro h
    have hc := h c (List.mem_cons_self c rest)
    have hrest : ∀ cmd ∈ rest, cmd.expression ≠ none :=
      fun cmd hm => h cmd (List.mem_cons_of_mem c hm)
    match hp : c.expression with
    | none => exact absurd hp hc
    | some p =>
      simp only [exprPass, hp, List.filterMap_cons, fireExpr]
      cases hm : pyMatch p body with
      | none => simp [hm, ih hrest]
      | some caps => simp [hm, ih hrest]

theorem handleRoomMessage_eq (bot : BotConfig) (roomId : String) (ev : RoomEvent)
    (hmsg : ev.msgtype = "m.text") (hsender : ev.sender ≠ bot.mxId)
    (ch : Char) (cs : List Char) (hbody : ev.body.data = ch :: cs) :
    handleRoomMessage bot roomId ev =
      ⟨(if ch = '!' then wordPass bot.wordCommands roomId ev.sender ev.body else []) ++
          (exprPass ev.sender roomId ev.body (exprGet bot.expressionCommands roomId)).1,
        (exprPass ev.sender roomId ev.body (exprGet bot.expressionCommands roomId)).2⟩ := by
  unfold handleRoomMessage
  rw [if_neg (fun hc => hc hmsg), if_neg hsender, hbody]

/-- Claim C4: word-command collisions on the same (room, trigger) pair are
resolved last-write-wins: after construction, `wordIndex[room][trigger]`
holds exactly the last command of the input list (with its scope expanded)
that is a truthy word command registering that trigger in that room, so
exactly one word command is registered per (room, trigger) slot. -/
theorem wordIndex_last_write_wins (cmds : List Command) (listening : List String)
    (r w : String) :
    wordLookup (buildIndexes cmds listening).1 r w =
      ((cmds.map (effCommand listening)).filter (wordHitsB r w)).getLast? := by
  unfold buildIndexes
  rw [wordLookup_foldRegister]
  simp [wordLookup, dictGet, optOr_none_right]

/-- Claim C5: a command configured with no explicit room scope inherits, at
construction time, exactly the listening-room set: (i) building the table
with the scopeless command is the same as building it with the command
explicitly scoped to the construction-time listening rooms, (ii) its
effective scope is that listening list, (iii) a word command lands in the
word index under exactly the listening rooms, and (iv) an expression
command is appended to exactly the listening rooms' lists (once per
occurrence of the room in the listening list). -/
theorem default_scope_is_listening_rooms (c : Command) (listening : List String)
    (hscope : c.rooms = []) :
    (∀ pre post : List Command,
        buildIndexes (pre ++ c :: post) listening =
          buildIndexes (pre ++ effCommand listening c :: post) listening) ∧
    (effCommand listening c).rooms = listening ∧
    (truthyWord c = true →
      ∀ r, wordLookup (buildIndexes [c] listening).1 r (c.word.getD "") =
        if r ∈ listening then some (effCommand listening c) else none) ∧
    (truthyWord c = false →
      ∀ r, exprGet (buildIndexes [c] listening).2 r =
        List.replicate (listening.countP (fun x => x = r)) (effCommand listening c)) := by
  have heff : (effCommand listening c).rooms = listening := by
    unfold effCommand
    simp [hscope]
  refine ⟨?_, heff, ?_, ?_⟩
  · intro pre post
    unfold buildIndexes
    rw [List.foldl_append, List.foldl_append, List.foldl_cons, List.foldl_cons,
      registerCommand_eff]
  · intro ht r
    obtain ⟨v, hv, hv'⟩ := (truthyWord_iff c).mp ht
    have hsingle : buildIndexes [c] listening = registerCommand listening ([], []) c := by
      unfold buildIndexes
      rw [List.foldl_cons, List.foldl_nil]
    rw [hsingle, wordLookup_registerCommand]
    by_cases hr : r ∈ listening
    · have hhit : WordHits listening r (c.word.getD "") c := by
        refine ⟨ht, by rw [heff]; exact hr, ?_⟩
        rw [hv]
        simp
      rw [if_pos hhit, if_pos hr]
    · have hmiss : ¬ WordHits listening r (c.word.getD "") c := by
        rintro ⟨-, hm, -⟩
        rw [heff] at hm
        exact hr hm
      rw [if_neg hmiss, if_neg hr]
      simp [wordLookup, dictGet]
  · intro ht r
    have hsingle : buildIndexes [c] listening = registerCommand listening ([], []) c := by
      unfold buildIndexes
      rw [List.foldl_cons, List.foldl_nil]
    rw [hsingle, exprGet_registerCommand, exprGet_nil]
    rw [if_neg (by rw [ht]; exact Bool.false_ne_true)]
    rw [heff, List.nil_append]

/-- Witness for C5 at a concrete scopeless word command and a two-room
listening set. -/
theorem default_scope_is_listening_rooms_witness :
    (Command.mk (some "w") none "N" []).rooms = [] ∧
    ((∀ pre post : List Command,
        buildIndexes (pre ++ Command.mk (some "w") none "N" [] :: post) ["R1", "R2"] =
          buildIndexes
            (pre ++ effCommand ["R1", "R2"] (Command.mk (some "w") none "N" []) :: post)
            ["R1", "R2"]) ∧
      (effCommand ["R1", "R2"] (Command.mk (some "w") none "N" [])).rooms = ["R1", "R2"] ∧
      (truthyWord (Command.mk (some "w") none "N" []) = true →
        ∀ r, wordLookup (buildIndexes [Command.mk (some "w") none "N" []] ["R1", "R2"]).1 r
            ((Command.mk (some "w") none "N" []).word.getD "") =
          if r ∈ ["R1", "R2"] then
            some (effCommand ["R1", "R2"] (Command.mk (some "w") none "N" [])) else none) ∧
      (truthyWord (Command.mk (some "w") none "N" []) = false →
        ∀ r, exprGet (buildIndexes [Command.mk (some "w") none "N" []] ["R1", "R2"]).2 r =
          List.replicate (List.countP (fun x => x = r) ["R1", "R2"])
            (effCommand ["R1", "R2"] (Command.mk (some "w") none "N" [])))) :=
  ⟨rfl, default_scope_is_listening_rooms (Command.mk (some "w") none "N" []) ["R1", "R2"] rfl⟩

/-- Claim C7: events whose message type is not `m.text`, and events authored
by the bot's own identity, produce no command events (and no error),
regardless of the body. -/
theorem nonText_or_self_ignored (bot : BotConfig) (roomId : String) (ev : RoomEvent)
    (h : ev.msgtype ≠ "m.text" ∨ ev.sender = bot.mxId) :
    handleRoomMessage bot roomId ev = ⟨[], none⟩ := by
  unfold handleRoomMessage
  rcases h with h | h
  · rw [if_pos h]
  · by_cases h1 : ev.msgtype ≠ "m.text"
    · rw [if_pos h1]
    · rw [if_neg h1, if_pos h]

/-- Witness for C7: an image event with a would-be trigger body, and a text
event authored by the bot itself, both yield nothing. -/
theorem nonText_or_self_ignored_witness :
    handleRoomMessage (mkBot "@bot:x" [Command.mk (some "ping") none "Ping" ["R"]] ["R"])
        "R" ⟨"m.image", "@u:x", "!ping a"⟩ = ⟨[], none⟩ ∧
    handleRoomMessage (mkBot "@bot:x" [Command.mk (some "ping") none "Ping" ["R"]] ["R"])
        "R" ⟨"m.text", "@bot:x", "!ping a"⟩ = ⟨[], none⟩ :=
  ⟨nonText_or_self_ignored _ "R" ⟨"m.image", "@u:x", "!ping a"⟩ (Or.inl (by decide)),
   nonText_or_self_ignored _ "R" ⟨"m.text", "@bot:x", "!ping a"⟩ (Or.inr rfl)⟩

/-- Claim C10: a text event with an empty body from another user reaches the
`body[0]` test and raises `IndexError` before any command matching: the
handler is not total over text bodies, and the empty body emits no events
while escaping with the error. -/
theorem empty_body_index_error (bot : BotConfig) (roomId sender : String)
    (h : sender ≠ bot.mxId) :
    handleRoomMessage bot roomId ⟨"m.text", sender, ""⟩ =
      ⟨[], some PyError.indexError⟩ := by
  unfold handleRoomMessage
  rw [if_neg (by simp), if_neg h]

/-- Witness for C10 at a concrete bot and sender. -/
theorem empty_body_index_error_witness :
    handleRoomMessage (mkBot "@bot:x" [Command.mk (some "ping") none "Ping" ["R"]] ["R"])
        "R" ⟨"m.text", "@u:x", ""⟩ = ⟨[], some PyError.indexError⟩ :=
  empty_body_index_error _ "R" "@u:x" (by decide)

/-- Modelled from the spec: the spec says the router "splits on whitespace"
and takes "remaining whitespace-split tokens".  This is Python `str.split()`
with no separator: split on every whitespace character and drop empty
tokens.  It is defined only to compare the spec's wording with the code's
`body.split(" ")`; the handler above never uses it. -/
def splitPred (p : Char → Bool) : List Char → List (List Char)
  | [] => [[]]
  | c :: cs =>
    let r := splitPred p cs
    if p c then [] :: r
    else (c :: r.headD []) :: r.tail

/-- Modelled from the spec: whitespace-token split (see `splitPred`). -/
def specWhitespaceSplit (s : String) : List String :=
  ((splitPred (fun c => c.isWhitespace) s.data).filter (fun piece => !piece.isEmpty)).map
    String.mk

/-- Counterexample to claim C1 as stated: for the body `"!ping\textra"` the
whitespace-split of the spec yields the first token `"!ping"`, whose
trigger `"ping"` is registered for room `"R"`, so the claim demands one
`CommandEvent`; but the code splits on the space character only, producing
the single piece `"!ping\textra"`, finds no command under the trigger
`"ping\textra"`, and fires nothing. -/
theorem wordCommand_whitespace_counterexample :
    specWhitespaceSplit "!ping\textra" = ["!ping", "extra"] ∧
    (wordLookup (mkBot "@bot:x" [Command.mk (some "ping") none "Ping" ["R"]] ["R"]).wordCommands
        "R" "ping").isSome = true ∧
    pySplit "!ping\textra" ' ' = ["!ping\textra"] ∧
    handleRoomMessage (mkBot "@bot:x" [Command.mk (some "ping") none "Ping" ["R"]] ["R"])
        "R" ⟨"m.text", "@u:x", "!ping\textra"⟩ = ⟨[], none⟩ :=
  ⟨by decide, by decide, by decide, by decide⟩

/-- Claim C1 (amended): the body is split on the single space character, not
on general whitespace.  For a text message from another user whose body
starts with `'!'`, if the word index of the room maps the first space-split
token minus its leading `'!'` to a command, the handler fires exactly one
word event, carrying the command's name and the remaining space-split
tokens as args, followed only by the output of the independent expression
pass. -/
theorem wordCommand_space_split (bot : BotConfig) (roomId : String) (ev : RoomEvent)
    (command : Command) (cs : List Char)
    (hmsg : ev.msgtype = "m.text") (hsender : ev.sender ≠ bot.mxId)
    (hbody : ev.body.data = '!' :: cs)
    (hfound : wordLookup bot.wordCommands roomId
      (pyDropOne ((pySplit ev.body ' ').headD "")) = some command) :
    handleRoomMessage bot roomId ev =
      ⟨⟨command.name, ev.sender, roomId, CmdArgs.wordArgs ((pySplit ev.body ' ').drop 1)⟩ ::
          (exprPass ev.sender roomId ev.body (exprGet bot.expressionCommands roomId)).1,
        (exprPass ev.sender roomId ev.body (exprGet bot.expressionCommands roomId)).2⟩ := by
  rw [handleRoomMessage_eq bot roomId ev hmsg hsender '!' cs hbody, if_pos rfl]
  unfold wordPass
  rw [hfound]
  rfl

/-- Witness for the amended C1: the spec's own example body
`"!ping extra args"` (single spaces, where space-split and whitespace-split
agree) fires exactly one event `{command: "Ping", args: ["extra", "args"]}`. -/
theorem wordCommand_space_split_witness :
    handleRoomMessage (mkBot "@bot:x" [Command.mk (some "ping") none "Ping" ["R"]] ["R"])
        "R" ⟨"m.text", "@u:x", "!ping extra args"⟩ =
      ⟨[⟨"Ping", "@u:x", "R", CmdArgs.wordArgs ["extra", "args"]⟩], none⟩ := by
  have h := wordCommand_space_split
    (mkBot "@bot:x" [Command.mk (some "ping") none "Ping" ["R"]] ["R"]) "R"
    ⟨"m.text", "@u:x", "!ping extra args"⟩ (Command.mk (some "ping") none "Ping" ["R"])
    "ping extra args".data rfl (by decide) (by decide) (by decide)
  rw [h]
  decide

/-- Counterexample to claim C3 as stated: a regex command whose pattern
matches the empty body is registered for the room, but on the empty body the
handler raises `IndexError` at `body[0]` before the regex loop runs, so the
matching pattern fires no event at all. -/
theorem regexPass_empty_body_counterexample :
    pyMatch Pattern.emp "" = some [] ∧
    exprGet (mkBot "@bot:x" [Command.mk none (some Pattern.emp) "E" ["R"]] ["R"]).expressionCommands
        "R" = [Command.mk none (some Pattern.emp) "E" ["R"]] ∧
    handleRoomMessage (mkBot "@bot:x" [Command.mk none (some Pattern.emp) "E" ["R"]] ["R"])
        "R" ⟨"m.text", "@u:x", ""⟩ = ⟨[], some PyError.indexError⟩ :=
  ⟨by decide, by decide, by decide⟩

/-- Claim C3 (amended): for a text message from another user with a
non-empty body, the handler walks the room's expression commands in
registration (insertion) order; every command whose pattern matches the
body anchored at the start fires exactly one event with the named captures
as args; all matching commands fire, in registration order (this is the
`filterMap` below), and the expression pass runs in addition to — appended
after, and independent of — the word pass.  Moreover a successful anchored
match only consumes a prefix of the body (prefix match, not full-string). -/
theorem regexPass_all_fire (bot : BotConfig) (roomId : String) (ev : RoomEvent)
    (ch : Char) (cs : List Char)
    (hmsg : ev.msgtype = "m.text") (hsender : ev.sender ≠ bot.mxId)
    (hbody : ev.body.data = ch :: cs)
    (hpatterns : ∀ cmd ∈ exprGet bot.expressionCommands roomId, cmd.expression ≠ none) :
    handleRoomMessage bot roomId ev =
      ⟨(if ch = '!' then wordPass bot.wordCommands roomId ev.sender ev.body else []) ++
          (exprGet bot.expressionCommands roomId).filterMap
            (fireExpr ev.sender roomId ev.body),
        none⟩ ∧
    (∀ p rest caps, Pattern.matchFrom p ev.body.data = some (rest, caps) →
      ∃ pre, pre ++ rest = ev.body.data) := by
  constructor
  · rw [handleRoomMessage_eq bot roomId ev hmsg hsender ch cs hbody]
    rw [exprPass_filterMap ev.sender roomId ev.body _ hpatterns]
  · intro p rest caps h
    exact matchFrom_consumes p _ _ _ h

/-- Witness for the amended C3: three regex commands in one room; the first
and third match the body `"so"` (the third with a named capture, and both
consuming only the prefix `"s"`), the second does not; exactly the two
matching ones fire, in registration order, with their captures. -/
theorem regexPass_all_fire_witness :
    handleRoomMessage
        (mkBot "@bot:x"
          [Command.mk none (some (Pattern.lit 's')) "A" ["R"],
           Command.mk none (some (Pattern.lit 'x')) "B" ["R"],
           Command.mk none (some (Pattern.group "g" (Pattern.lit 's'))) "C" ["R"]] ["R"])
        "R" ⟨"m.text", "@u:x", "so"⟩ =
      ⟨[⟨"A", "@u:x", "R", CmdArgs.exprArgs []⟩,
        ⟨"C", "@u:x", "R", CmdArgs.exprArgs [("g", "s")]⟩], none⟩ := by
  have h := regexPass_all_fire
    (mkBot "@bot:x"
      [Command.mk none (some (Pattern.lit 's')) "A" ["R"],
       Command.mk none (some (Pattern.lit 'x')) "B" ["R"],
       Command.mk none (some (Pattern.group "g" (Pattern.lit 's'))) "C" ["R"]] ["R"])
    "R" ⟨"m.text", "@u:x", "so"⟩ 's' "o".data rfl (by decide) (by decide) (by decide)
  rw [h.1]
  decide

/-- Error raised by the Matrix SDK (`MatrixRequestError`): a numeric code
and the server's message content. -/
structure MatrixError : Type where
  code : Nat
  content : String
deriving DecidableEq

/-- A joined room as held in the client's room dict: its canonical id and
the aliases currently known to the client (`room.aliases`, refreshed in
place by `room.update_aliases()`). -/
structure Room : Type where
  room_id : String
  aliases : List String
deriving DecidableEq

/-- The remote homeserver as seen through the SDK calls the component makes:
the alias list `update_aliases` fetches per room id, the outcome of
`join_room` per ref (canonical id of the joined room, or an error), and the
outcome of `room.send_text` per room id and message. -/
structure Server : Type where
  trueAliases : String → List String
  joinResult : String → Except MatrixError String
  sendResult : String → String → Option MatrixError

/-- The mutable state `_join_or_get_room` reads and writes: the client's
dict of joined rooms (`self._client.get_rooms()`, keyed by canonical id)
and the bot's `_aliases_fetched_for` set (kept as a list in join order). -/
structure ResolverState : Type where
  rooms : List (String × Room)
  aliasesFetchedFor : List String
deriving DecidableEq

/-- Remote calls issued while resolving and sending, in program order. -/
inductive RemoteCall : Type where
  | fetchAliases : String → RemoteCall
  | join : String → RemoteCall
  | sendText : String → String → RemoteCall
deriving DecidableEq

/-- Result of the `for room in rooms.values()` loop of `_join_or_get_room`. -/
structure ScanResult : Type where
  rooms : List (String × Room)
  fetched : List String
  calls : List RemoteCall
  found : Option Room
deriving DecidableEq

/-- The alias scan of `_join_or_get_room`: walk the joined rooms in dict
order; for each room not yet in `_aliases_fetched_for`, call
`update_aliases()` (refreshing `room.aliases` from the server) and mark it
fetched; return at the first room whose aliases contain the ref, leaving
the remaining rooms untouched. -/
def scanRooms (srv : Server) (ref : String) :
    List (String × Room) → List String → ScanResult
  | [], fetched => ⟨[], fetched, [], none⟩
  | (k, room) :: rest, fetched =>
    if room.room_id ∈ fetched then
      if ref ∈ room.aliases then
        ⟨(k, room) :: rest, fetched, [], some room⟩
      else
        let res := scanRooms srv ref rest fetched
        ⟨(k, room) :: res.rooms, res.fetched, res.calls, res.found⟩
    else
      let room' : Room := ⟨room.room_id, srv.trueAliases room.room_id⟩
      if ref ∈ room'.aliases then
        ⟨(k, room') :: rest, fetched ++ [room.room_id],
          [RemoteCall.fetchAliases room.room_id], some room'⟩
      else
        let res := scanRooms srv ref rest (fetched ++ [room.room_id])
        ⟨(k, room') :: res.rooms, res.fetched,
          RemoteCall.fetchAliases room.room_id :: res.calls, res.found⟩

instance {ε α : Type} [DecidableEq ε] [DecidableEq α] : DecidableEq (Except ε α) :=
  fun x y =>
    match x, y with
    | Except.ok a, Except.ok b =>
      if h : a = b then isTrue (by rw [h]) else isFalse (by intro hh; cases hh; exact h rfl)
    | Except.error a, Except.error b =>
      if h : a = b then isTrue (by rw [h]) else isFalse (by intro hh; cases hh; exact h rfl)
    | Except.ok _, Except.error _ => isFalse (fun hh => Except.noConfusion hh)
    | Except.error _, Except.ok _ => isFalse (fun hh => Except.noConfusion hh)

/-- Result of one `_join_or_get_room` call: the returned room or the raised
`MatrixRequestError`, the state afterwards, and the remote calls issued. -/
structure ResolveResult : Type where
  outcome : Except MatrixError Room
  state : ResolverState
  calls : List RemoteCall
deriving DecidableEq

/-- `MatrixBot._join_or_get_room`: return the room directly when the ref is
a key of the client's room dict (no remote call); otherwise scan the joined
rooms' aliases (fetching each room's alias list at most once); otherwise
call `join_room(ref)`, which on success stores a fresh `Room` under its
canonical id in the client's dict, and on failure raises after the scan's
state updates have already happened. -/
def joinOrGetRoom (srv : Server) (st : ResolverState) (ref : String) : ResolveResult :=
  match dictGet st.rooms ref with
  | some room => ⟨Except.ok room, st, []⟩
  | none =>
    match (scanRooms srv ref st.rooms st.aliasesFetchedFor).found with
    | some room =>
      ⟨Except.ok room,
        ⟨(scanRooms srv ref st.rooms st.aliasesFetchedFor).rooms,
          (scanRooms srv ref st.rooms st.aliasesFetchedFor).fetched⟩,
        (scanRooms srv ref st.rooms st.aliasesFetchedFor).calls⟩
    | none =>
      match srv.joinResult ref with
      | Except.error e =>
        ⟨Except.error e,
          ⟨(scanRooms srv ref st.rooms st.aliasesFetchedFor).rooms,
            (scanRooms srv ref st.rooms st.aliasesFetchedFor).fetched⟩,
          (scanRooms srv ref st.rooms st.aliasesFetchedFor).calls ++ [RemoteCall.join ref]⟩
      | Except.ok cid =>
        ⟨Except.ok ⟨cid, []⟩,
          ⟨dictInsert (scanRooms srv ref st.rooms st.aliasesFetchedFor).rooms cid ⟨cid, []⟩,
            (scanRooms srv ref st.rooms st.aliasesFetchedFor).fetched⟩,
          (scanRooms srv ref st.rooms st.aliasesFetchedFor).calls ++ [RemoteCall.join ref]⟩

/-- A sequence of resolve calls threading the client state, as `_join_rooms`
and `_send_message` perform them (their per-call exceptions are caught, so
the sequence always continues). -/
def resolveSeq (srv : Server) (st : ResolverState) :
    List String → ResolverState × List RemoteCall
  | [] => (st, [])
  | ref :: rest =>
    let r1 := joinOrGetRoom srv st ref
    let r2 := resolveSeq srv r1.state rest
    (r2.1, r1.calls ++ r2.2)

/-- One `_LOGGER.error("Unable to deliver message to room '%s': %d, %s", …)`
record: the failing target ref and the server error's code and content. -/
structure SendLog : Type where
  target : String
  code : Nat
  content : String
deriving DecidableEq

/-- Result of `_send_message`: final state, remote calls, error logs. -/
structure SendResult : Type where
  state : ResolverState
  calls : List RemoteCall
  logs : List SendLog
deriving DecidableEq

/-- One iteration of the loop in `_send_message`: `_join_or_get_room` then
`room.send_text(message)`; a `MatrixRequestError` from either step is
caught and logged with the target and the error's code and content. -/
def sendOne (srv : Server) (st : ResolverState) (message target : String) : SendResult :=
  match joinOrGetRoom srv st target with
  | ⟨Except.ok room, st', calls⟩ =>
    match srv.sendResult room.room_id message with
    | none => ⟨st', calls ++ [RemoteCall.sendText room.room_id message], []⟩
    | some e =>
      ⟨st', calls ++ [RemoteCall.sendText room.room_id message],
        [⟨target, e.code, e.content⟩]⟩
  | ⟨Except.error e, st', calls⟩ => ⟨st', calls, [⟨target, e.code, e.content⟩]⟩

/-- `MatrixBot._send_message`: attempt every target in order, accumulating
state, calls and logs; no exception escapes the loop. -/
def sendMessage (srv : Server) (st : ResolverState) (message : String) :
    List String → SendResult
  | [] => ⟨st, [], []⟩
  | t :: ts =>
    let r1 := sendOne srv st message t
    let r2 := sendMessage srv r1.state message ts
    ⟨r2.state, r1.calls ++ r2.calls, r1.logs ++ r2.logs⟩

theorem scanRooms_nil (srv : Server) (ref : String) (fetched : List String) :
    scanRooms srv ref [] fetched = ⟨[], fetched, [], none⟩ := rfl

theorem scanRooms_cons_mem_found (srv : Server) (ref k : String) (room : Room)
    (rest : List (String × Room)) (fetched : List String)
    (hf : room.room_id ∈ fetched) (ha : ref ∈ room.aliases) :
    scanRooms srv ref ((k, room) :: rest) fetched =
      ⟨(k, room) :: rest, fetched, [], some room⟩ := by
  simp [scanRooms, hf, ha]

theorem scanRooms_cons_mem_miss (srv : Server) (ref k : String) (room : Room)
    (rest : List (String × Room)) (fetched : List String)
    (hf : room.room_id ∈ fetched) (ha : ref ∉ room.aliases) :
    scanRooms srv ref ((k, room) :: rest) fetched =
      ⟨(k, room) :: (scanRooms srv ref rest fetched).rooms,
        (scanRooms srv ref rest fetched).fetched,
        (scanRooms srv ref rest fetched).calls,
        (scanRooms srv ref rest fetched).found⟩ := by
  simp [scanRooms, hf, ha]

theorem scanRooms_cons_new_found (srv : Server) (ref k : String) (room : Room)
    (rest : List (String × Room)) (fetched : List String)
    (hf : room.room_id ∉ fetched) (ha : ref ∈ srv.trueAliases room.room_id) :
    scanRooms srv ref ((k, room) :: rest) fetched =
      ⟨(k, ⟨room.room_id, srv.trueAliases room.room_id⟩) :: rest,
        fetched ++ [room.room_id], [RemoteCall.fetchAliases room.room_id],
        some ⟨room.room_id, srv.trueAliases room.room_id⟩⟩ := by
  simp [scanRooms, hf, ha]

theorem scanRooms_cons_new_miss (srv : Server) (ref k : String) (room : Room)
    (rest : List (String × Room)) (fetched : List String)
    (hf : room.room_id ∉ fetched) (ha : ref ∉ srv.trueAliases room.room_id) :
    scanRooms srv ref ((k, room) :: rest) fetched =
      ⟨(k, ⟨room.room_id, srv.trueAliases room.room_id⟩) ::
          (scanRooms srv ref rest (fetched ++ [room.room_id])).rooms,
        (scanRooms srv ref rest (fetched ++ [room.room_id])).fetched,
        RemoteCall.fetchAliases room.room_id ::
          (scanRooms srv ref rest (fetched ++ [room.room_id])).calls,
        (scanRooms srv ref rest (fetched ++ [room.room_id])).found⟩ := by
  simp [scanRooms, hf, ha]

theorem scanRooms_no_join (srv : Server) (ref : String) :
    ∀ (roomsL : List (String × Room)) (fetched : List String) (r' : String),
      RemoteCall.join r' ∉ (scanRooms srv ref roomsL fetched).calls := by
  intro roomsL
  induction roomsL with
  | nil => intro fetched r'; simp [scanRooms_nil]
  | cons p rest ih =>
    obtain ⟨k, room⟩ := p
    intro fetched r'
    by_cases hf : room.room_id ∈ fetched
    · by_cases ha : ref ∈ room.aliases
      · rw [scanRooms_cons_mem_found srv ref k room rest fetched hf ha]
        simp
      · rw [scanRooms_cons_mem_miss srv ref k room rest fetched hf ha]
        exact ih fetched r'
    · by_cases ha : ref ∈ srv.trueAliases room.room_id
      · rw [scanRooms_cons_new_found srv ref k room rest fetched hf ha]
        simp
      · rw [scanRooms_cons_new_miss srv ref k room rest fetched hf ha]
        simp only [List.mem_cons]
        rintro (h | h)
        · exact RemoteCall.noConfusion h
        · exact ih (fetched ++ [room.room_id]) r' h

theorem scanRooms_found_aliases (srv : Server) (ref : String) :
    ∀ (roomsL : List (String × Room)) (fetched : List String) (room : Room),
      (scanRooms srv ref roomsL fetched).found = some room → ref ∈ room.aliases := by
  intro roomsL
  induction roomsL with
  | nil => intro fetched room h; simp [scanRooms_nil] at h
  | cons p rest ih =>
    obtain ⟨k, r0⟩ := p
    intro fetched room h
    by_cases hf : r0.room_id ∈ fetched
    · by_cases ha : ref ∈ r0.aliases
      · rw [scanRooms_cons_mem_found srv ref k r0 rest fetched hf ha] at h
        simp at h
        rw [← h]
        exact ha
      · rw [scanRooms_cons_mem_miss srv ref k r0 rest fetched hf ha] at h
        exact ih fetched room h
    · by_cases ha : ref ∈ srv.trueAliases r0.room_id
      · rw [scanRooms_cons_new_found srv ref k r0 rest fetched hf ha] at h
        simp at h
        rw [← h]
        exact ha
      · rw [scanRooms_cons_new_miss srv ref k r0 rest fetched hf ha] at h
        exact ih (fetched ++ [r0.room_id]) room h

theorem scanRooms_found_mem (srv : Server) (ref : String) :
    ∀ (roomsL : List (String × Room)) (fetched : List String) (room : Room),
      (scanRooms srv ref roomsL fetched).found = some room →
        (∃ k, (k, room) ∈ (scanRooms srv ref roomsL fetched).rooms) ∧
          room.room_id ∈ (scanRooms srv ref roomsL fetched).fetched := by
  intro roomsL
  induction roomsL with
  | nil => intro fetched room h; simp [scanRooms_nil] at h
  | cons p rest ih =>
    obtain ⟨k, r0⟩ := p
    intro fetched room h
    by_cases hf : r0.room_id ∈ fetched
    · by_cases ha : ref ∈ r0.aliases
      · rw [scanRooms_cons_mem_found srv ref k r0 rest fetched hf ha] at h ⊢
        simp at h
        subst h
        exact ⟨⟨k, List.mem_cons_self _ _⟩, hf⟩
      · rw [scanRooms_cons_mem_miss srv ref k r0 rest fetched hf ha] at h ⊢
        obtain ⟨⟨k', hk'⟩, hfd⟩ := ih fetched room h
        exact ⟨⟨k', List.mem_cons_of_mem _ hk'⟩, hfd⟩
    · by_cases ha : ref ∈ srv.trueAliases r0.room_id
      · rw [scanRooms_cons_new_found srv ref k r0 rest fetched hf ha] at h ⊢
        simp at h
        subst h
        refine ⟨⟨k, List.mem_cons_self _ _⟩, ?_⟩
        simp
      · rw [scanRooms_cons_new_miss srv ref k r0 rest fetched hf ha] at h ⊢
        obtain ⟨⟨k', hk'⟩, hfd⟩ := ih (fetched ++ [r0.room_id]) room h
        exact ⟨⟨k', List.mem_cons_of_mem _ hk'⟩, hfd⟩

theorem scanRooms_fetched_iff (srv : Server) (ref : String) :
    ∀ (roomsL : List (String × Room)) (fetched : List String) (rid : String),
      rid ∈ (scanRooms srv ref roomsL fetched).fetched ↔
        rid ∈ fetched ∨
          RemoteCall.fetchAliases rid ∈ (scanRooms srv ref roomsL fetched).calls := by
  intro roomsL
  induction roomsL with
  | nil => intro fetched rid; simp [scanRooms_nil]
  | cons p rest ih =>
    obtain ⟨k, r0⟩ := p
    intro fetched rid
    by_cases hf : r0.room_id ∈ fetched
    · by_cases ha : ref ∈ r0.aliases
      · rw [scanRooms_cons_mem_found srv ref k r0 rest fetched hf ha]
        simp
      · rw [scanRooms_cons_mem_miss srv ref k r0 rest fetched hf ha]
        exact ih fetched rid
    · by_cases ha : ref ∈ srv.trueAliases r0.room_id
      · rw [scanRooms_cons_new_found srv ref k r0 rest fetched hf ha]
        simp [RemoteCall.fetchAliases.injEq]
      · rw [scanRooms_cons_new_miss srv ref k r0 rest fetched hf ha]
        rw [ih (fetched ++ [r0.room_id]) rid]
        simp [RemoteCall.fetchAliases.injEq, or_assoc]

theorem scanRooms_calls_ids (srv : Server) (ref : String) :
    ∀ (roomsL : List (String × Room)) (fetched : List String) (rid : String),
      RemoteCall.fetchAliases rid ∈ (scanRooms srv ref roomsL fetched).calls →
        rid ∈ roomsL.map (fun p => p.2.room_id) := by
  intro roomsL
  induction roomsL with
  | nil => intro fetched rid h; simp [scanRooms_nil] at h
  | cons p rest ih =>
    obtain ⟨k, r0⟩ := p
    intro fetched rid h
    by_cases hf : r0.room_id ∈ fetched
    · by_cases ha : ref ∈ r0.aliases
      · rw [scanRooms_cons_mem_found srv ref k r0 rest fetched hf ha] at h
        simp at h
      · rw [scanRooms_cons_mem_miss srv ref k r0 rest fetched hf ha] at h
        exact List.mem_cons_of_mem _ (ih fetched rid h)
    · by_cases ha : ref ∈ srv.trueAliases r0.room_id
      · rw [scanRooms_cons_new_found srv ref k r0 rest fetched hf ha] at h
        simp at h
        simp [h]
      · rw [scanRooms_cons_new_miss srv ref k r0 rest fetched hf ha] at h
        rcases List.mem_cons.mp h with h1 | h1
        · simp [RemoteCall.fetchAliases.injEq] at h1
          simp [h1]
        · exact List.mem_cons_of_mem _ (ih (fetched ++ [r0.room_id]) rid h1)

theorem scanRooms_fetch_count (srv : Server) (ref rid : String) :
    ∀ (roomsL : List (String × Room)) (fetched : List String),
      (scanRooms srv ref roomsL fetched).calls.countP
          (fun c => c = RemoteCall.fetchAliases rid) ≤
        if rid ∈ fetched then 0 else 1 := by
  intro roomsL
  induction roomsL with
  | nil =>
    intro fetched
    simp [scanRooms_nil]
  | cons p rest ih =>
    obtain ⟨k, r0⟩ := p
    intro fetched
    by_cases hf : r0.room_id ∈ fetched
    · by_cases ha : ref ∈ r0.aliases
      · rw [scanRooms_cons_mem_found srv ref k r0 rest fetched hf ha]
        simp
      · rw [scanRooms_cons_mem_miss srv ref k r0 rest fetched hf ha]
        exact ih fetched
    · by_cases ha : ref ∈ srv.trueAliases r0.room_id
      · rw [scanRooms_cons_new_found srv ref k r0 rest fetched hf ha]
        by_cases hr : rid ∈ fetched
        · have hne : ¬ (RemoteCall.fetchAliases r0.room_id = RemoteCall.fetchAliases rid) := by
            intro hc
            rw [RemoteCall.fetchAliases.injEq] at hc
            exact hf (hc ▸ hr)
          simp [hr, List.countP_cons, hne]
        · simp [hr, List.countP_cons]
          split <;> simp
      · rw [scanRooms_cons_new_miss srv ref k r0 rest fetched hf ha]
        rw [List.countP_cons]
        have hrec := ih (fetched ++ [r0.room_id])
        by_cases heq : rid = r0.room_id
        · subst heq
          have hmem : r0.room_id ∈ fetched ++ [r0.room_id] :=
            List.mem_append_right _ (List.mem_singleton.mpr rfl)
          rw [if_pos hmem] at hrec
          have hrec0 := Nat.le_zero.mp hrec
          rw [if_neg hf]
          simp [hrec0]
        · have hne : ¬ ((RemoteCall.fetchAliases r0.room_id : RemoteCall) =
              RemoteCall.fetchAliases rid) := by
            intro hc
            rw [RemoteCall.fetchAliases.injEq] at hc
            exact heq hc.symm
          by_cases hr : rid ∈ fetched
          · have hmem : rid ∈ fetched ++ [r0.room_id] := List.mem_append_left _ hr
            rw [if_pos hmem] at hrec
            have hrec0 := Nat.le_zero.mp hrec
            rw [if_pos hr]
            simp [hrec0, hne]
          · have hmem : rid ∉ fetched ++ [r0.room_id] := by
              intro hc
              rcases List.mem_append.mp hc with h1 | h1
              · exact hr h1
              · exact heq (List.mem_singleton.mp h1)
            rw [if_neg hmem] at hrec
            rw [if_neg hr]
            simpa [hne] using hrec

theorem scanRooms_pairs (srv : Server) (ref : String) :
    ∀ (roomsL : List (String × Room)) (fetched : List String),
      (scanRooms srv ref roomsL fetched).rooms.map (fun p => (p.1, p.2.room_id)) =
        roomsL.map (fun p => (p.1, p.2.room_id)) := by
  intro roomsL
  induction roomsL with
  | nil => intro fetched; simp [scanRooms_nil]
  | cons p rest ih =>
    obtain ⟨k, r0⟩ := p
    intro fetched
    by_cases hf : r0.room_id ∈ fetched
    · by_cases ha : ref ∈ r0.aliases
      · rw [scanRooms_cons_mem_found srv ref k r0 rest fetched hf ha]
      · rw [scanRooms_cons_mem_miss srv ref k r0 rest fetched hf ha]
        simp [ih fetched]
    · by_cases ha : ref ∈ srv.trueAliases r0.room_id
      · rw [scanRooms_cons_new_found srv ref k r0 rest fetched hf ha]
        simp
      · rw [scanRooms_cons_new_miss srv ref k r0 rest fetched hf ha]
        simp [ih (fetched ++ [r0.room_id])]

theorem scanRooms_keys (srv : Server) (ref : String) (roomsL : List (String × Room))
    (fetched : List String) :
    (scanRooms srv ref roomsL fetched).rooms.map Prod.fst = roomsL.map Prod.fst := by
  have h := congrArg (List.map Prod.fst) (scanRooms_pairs srv ref roomsL fetched)
  simpa [List.map_map, Function.comp] using h

theorem scanRooms_keysId (srv : Server) (ref : String) (roomsL : List (String × Room))
    (fetched : List String) (hkeys : ∀ p ∈ roomsL, p.1 = p.2.room_id) :
    ∀ q ∈ (scanRooms srv ref roomsL fetched).rooms, q.1 = q.2.room_id := by
  intro q hq
  have hpair : (q.1, q.2.room_id) ∈
      (scanRooms srv ref roomsL fetched).rooms.map (fun p => (p.1, p.2.room_id)) :=
    List.mem_map_of_mem _ hq
  rw [scanRooms_pairs srv ref roomsL fetched] at hpair
  obtain ⟨p, hp, hpe⟩ := List.mem_map.mp hpair
  injection hpe with h1 h2
  rw [← h1, ← h2]
  exact hkeys p hp

theorem keys_eq_ids (roomsL : List (String × Room))
    (hkeys : ∀ p ∈ roomsL, p.1 = p.2.room_id) :
    roomsL.map Prod.fst = roomsL.map (fun p => p.2.room_id) :=
  List.map_congr_left hkeys

/-- The aliases of a joined room as `_join_or_get_room` will see them: the
cached list when the room's aliases were already fetched, otherwise the
list the server will return for it. -/
def visibleAliases (srv : Server) (fetched : List String) (room : Room) : List String :=
  if room.room_id ∈ fetched then room.aliases else srv.trueAliases room.room_id

/-- A ref is already reachable without joining: it is the canonical id of a
joined room, or an alias (cached, or about to be cached) of one. -/
def Reachable (srv : Server) (st : ResolverState) (ref : String) : Prop :=
  (dictGet st.rooms ref).isSome = true ∨
    ∃ p ∈ st.rooms, ref ∈ visibleAliases srv st.aliasesFetchedFor p.2

instance (srv : Server) (st : ResolverState) (ref : String) :
    Decidable (Reachable srv st ref) := by
  unfold Reachable
  infer_instance

/-- Consistency of a resolver state with the client it models: the room
dict is keyed by the rooms' canonical ids (as `matrix_client` maintains
it), keys are unique, only ids of joined rooms are marked as fetched, and
a fetched room's cached alias list is the server's alias list for it. -/
structure StateWF (srv : Server) (st : ResolverState) : Prop where
  keysId : ∀ p ∈ st.rooms, p.1 = p.2.room_id
  nodupKeys : (st.rooms.map Prod.fst).Nodup
  fetchedSub : ∀ rid ∈ st.aliasesFetchedFor, rid ∈ st.rooms.map Prod.fst
  cacheOk : ∀ p ∈ st.rooms, p.2.room_id ∈ st.aliasesFetchedFor →
    p.2.aliases = srv.trueAliases p.2.room_id

theorem scanRooms_complete (srv : Server) (ref : String) :
    ∀ (roomsL : List (String × Room)) (fetched : List String),
      (∀ p ∈ roomsL, p.1 = p.2.room_id) →
      (roomsL.map Prod.fst).Nodup →
      (∃ p ∈ roomsL, ref ∈ visibleAliases srv fetched p.2) →
      ((scanRooms srv ref roomsL fetched).found).isSome = true := by
  intro roomsL
  induction roomsL with
  | nil =>
    intro fetched hkeys hnodup hwit
    simp at hwit
  | cons p rest ih =>
    obtain ⟨k, r0⟩ := p
    intro fetched hkeys hnodup hwit
    have hkeys' : ∀ p ∈ rest, p.1 = p.2.room_id :=
      fun p hp => hkeys p (List.mem_cons_of_mem _ hp)
    have hk0 : k = r0.room_id := hkeys (k, r0) (List.mem_cons_self _ _)
    rw [List.map_cons, List.nodup_cons] at hnodup
    obtain ⟨hknot, hnodup'⟩ := hnodup
    by_cases hf : r0.room_id ∈ fetched
    · by_cases ha : ref ∈ r0.aliases
      · rw [scanRooms_cons_mem_found srv ref k r0 rest fetched hf ha]
        rfl
      · rw [scanRooms_cons_mem_miss srv ref k r0 rest fetched hf ha]
        refine ih fetched hkeys' hnodup' ?_
        rcases hwit with ⟨q, hq, hqv⟩
        rcases List.mem_cons.mp hq with hq | hq
        · exfalso
          rw [hq] at hqv
          simp only [visibleAliases, if_pos hf] at hqv
          exact ha hqv
        · exact ⟨q, hq, hqv⟩
    · by_cases ha : ref ∈ srv.trueAliases r0.room_id
      · rw [scanRooms_cons_new_found srv ref k r0 rest fetched hf ha]
        rfl
      · rw [scanRooms_cons_new_miss srv ref k r0 rest fetched hf ha]
        refine ih (fetched ++ [r0.room_id]) hkeys' hnodup' ?_
        rcases hwit with ⟨q, hq, hqv⟩
        rcases List.mem_cons.mp hq with hq | hq
        · exfalso
          rw [hq] at hqv
          simp only [visibleAliases, if_neg hf] at hqv
          exact ha hqv
        · refine ⟨q, hq, ?_⟩
          have hqid : q.2.room_id ≠ r0.room_id := by
            intro hc
            apply hknot
            have hmm : q.1 ∈ List.map Prod.fst rest := List.mem_map_of_mem Prod.fst hq
            rw [hkeys' q hq, hc, ← hk0] at hmm
            exact hmm
          have hmem : q.2.room_id ∈ fetched ++ [r0.room_id] ↔ q.2.room_id ∈ fetched := by
            rw [List.mem_append, List.mem_singleton]
            exact ⟨fun h => h.elim id (fun h => absurd h hqid), Or.inl⟩
          simp only [visibleAliases] at hqv ⊢
          by_cases hqf : q.2.room_id ∈ fetched
          · rw [if_pos (hmem.mpr hqf)]
            rw [if_pos hqf] at hqv
            exact hqv
          · rw [if_neg (fun h => hqf (hmem.mp h))]
            rw [if_neg hqf] at hqv
            exact hqv

theorem scanRooms_cacheOk (srv : Server) (ref : String) :
    ∀ (roomsL : List (String × Room)) (fetched : List String),
      (∀ p ∈ roomsL, p.1 = p.2.room_id) →
      (roomsL.map Prod.fst).Nodup →
      (∀ p ∈ roomsL, p.2.room_id ∈ fetched → p.2.aliases = srv.trueAliases p.2.room_id) →
      ∀ q ∈ (scanRooms srv ref roomsL fetched).rooms,
        q.2.room_id ∈ (scanRooms srv ref roomsL fetched).fetched →
          q.2.aliases = srv.trueAliases q.2.room_id := by
  intro roomsL
  induction roomsL with
  | nil =>
    intro fetched _ _ _ q hq
    rw [scanRooms_nil] at hq
    simp at hq
  | cons p rest ih =>
    obtain ⟨k, r0⟩ := p
    intro fetched hkeys hnodup hcache q hq hqf
    have hkeys' : ∀ p ∈ rest, p.1 = p.2.room_id :=
      fun p hp => hkeys p (List.mem_cons_of_mem _ hp)
    have hk0 : k = r0.room_id := hkeys (k, r0) (List.mem_cons_self _ _)
    rw [List.map_cons, List.nodup_cons] at hnodup
    obtain ⟨hknot, hnodup'⟩ := hnodup
    have hr0not : ∀ p ∈ rest, p.2.room_id ≠ r0.room_id := by
      intro p hp hc
      apply hknot
      have hmm : p.1 ∈ List.map Prod.fst rest := List.mem_map_of_mem Prod.fst hp
      rw [hkeys' p hp, hc, ← hk0] at hmm
      exact hmm
    by_cases hf : r0.room_id ∈ fetched
    · by_cases ha : ref ∈ r0.aliases
      · rw [scanRooms_cons_mem_found srv ref k r0 rest fetched hf ha] at hq hqf
        exact hcache q hq hqf
      · rw [scanRooms_cons_mem_miss srv ref k r0 rest fetched hf ha] at hq hqf
        rcases List.mem_cons.mp hq with hq | hq
        · rw [hq]
          exact hcache (k, r0) (List.mem_cons_self _ _) hf
        · exact ih fetched hkeys' hnodup'
            (fun p hp hpf => hcache p (List.mem_cons_of_mem _ hp) hpf) q hq hqf
    · by_cases ha : ref ∈ srv.trueAliases r0.room_id
      · rw [scanRooms_cons_new_found srv ref k r0 rest fetched hf ha] at hq hqf
        rcases List.mem_cons.mp hq with hq | hq
        · rw [hq]
        · have hqmem : q.2.room_id ∈ fetched := by
            rcases List.mem_append.mp hqf with h1 | h1
            · exact h1
            · exact absurd (List.mem_singleton.mp h1) (hr0not q hq)
          exact hcache q (List.mem_cons_of_mem _ hq) hqmem
      · rw [scanRooms_cons_new_miss srv ref k r0 rest fetched hf ha] at hq hqf
        rcases List.mem_cons.mp hq with hq | hq
        · rw [hq]
        · refine ih (fetched ++ [r0.room_id]) hkeys' hnodup' ?_ q hq hqf
          intro p hp hpf
          have hpmem : p.2.room_id ∈ fetched := by
            rcases List.mem_append.mp hpf with h1 | h1
            · exact h1
            · exact absurd (List.mem_singleton.mp h1) (hr0not p hp)
          exact hcache p (List.mem_cons_of_mem _ hp) hpmem

theorem dictGet_mem {α : Type} : ∀ (m : List (String × α)) (k : String) (v : α),
    dictGet m k = some v → (k, v) ∈ m := by
  intro m
  induction m with
  | nil => intro k v h; simp [dictGet] at h
  | cons p rest ih =>
    obtain ⟨pk, pv⟩ := p
    intro k v h
    simp only [dictGet] at h
    by_cases hk : pk = k
    · rw [if_pos hk] at h
      injection h with hv
      rw [← hk, ← hv]
      exact List.mem_cons_self _ _
    · rw [if_neg hk] at h
      exact List.mem_cons_of_mem _ (ih k v h)

theorem dictInsert_fresh {α : Type} (k : String) (v : α) :
    ∀ (m : List (String × α)), k ∉ m.map Prod.fst → dictInsert m k v = m ++ [(k, v)] := by
  intro m
  induction m with
  | nil => intro h; rfl
  | cons p rest ih =>
    obtain ⟨pk, pv⟩ := p
    intro h
    simp only [List.map_cons, List.mem_cons] at h
    push_neg at h
    obtain ⟨h1, h2⟩ := h
    have h1' : ¬ pk = k := fun hc => h1 hc.symm
    simp [dictInsert, h1', ih h2]

theorem joinOrGetRoom_hit (srv : Server) (st : ResolverState) (ref : String) (room : Room)
    (h : dictGet st.rooms ref = some room) :
    joinOrGetRoom srv st ref = ⟨Except.ok room, st, []⟩ := by
  unfold joinOrGetRoom
  rw [h]

theorem joinOrGetRoom_found (srv : Server) (st : ResolverState) (ref : String) (room : Room)
    (h : dictGet st.rooms ref = none)
    (hres : (scanRooms srv ref st.rooms st.aliasesFetchedFor).found = some room) :
    joinOrGetRoom srv st ref =
      ⟨Except.ok room,
        ⟨(scanRooms srv ref st.rooms st.aliasesFetchedFor).rooms,
          (scanRooms srv ref st.rooms st.aliasesFetchedFor).fetched⟩,
        (scanRooms srv ref st.rooms st.aliasesFetchedFor).calls⟩ := by
  unfold joinOrGetRoom
  rw [h, hres]

theorem joinOrGetRoom_join_ok (srv : Server) (st : ResolverState) (ref cid : String)
    (h : dictGet st.rooms ref = none)
    (hres : (scanRooms srv ref st.rooms st.aliasesFetchedFor).found = none)
    (hj : srv.joinResult ref = Except.ok cid) :
    joinOrGetRoom srv st ref =
      ⟨Except.ok ⟨cid, []⟩,
        ⟨dictInsert (scanRooms srv ref st.rooms st.aliasesFetchedFor).rooms cid ⟨cid, []⟩,
          (scanRooms srv ref st.rooms st.aliasesFetchedFor).fetched⟩,
        (scanRooms srv ref st.rooms st.aliasesFetchedFor).calls ++ [RemoteCall.join ref]⟩ := by
  unfold joinOrGetRoom
  rw [h, hres, hj]

theorem joinOrGetRoom_join_err (srv : Server) (st : ResolverState) (ref : String)
    (e : MatrixError) (h : dictGet st.rooms ref = none)
    (hres : (scanRooms srv ref st.rooms st.aliasesFetchedFor).found = none)
    (hj : srv.joinResult ref = Except.error e) :
    joinOrGetRoom srv st ref =
      ⟨Except.error e,
        ⟨(scanRooms srv ref st.rooms st.aliasesFetchedFor).rooms,
          (scanRooms srv ref st.rooms st.aliasesFetchedFor).fetched⟩,
        (scanRooms srv ref st.rooms st.aliasesFetchedFor).calls ++ [RemoteCall.join ref]⟩ := by
  unfold joinOrGetRoom
  rw [h, hres, hj]

theorem joinOrGetRoom_reachable (srv : Server) (st : ResolverState) (ref : String)
    (hkeys : ∀ p ∈ st.rooms, p.1 = p.2.room_id)
    (hnodup : (st.rooms.map Prod.fst).Nodup)
    (hreach : Reachable srv st ref) :
    (∃ room, (joinOrGetRoom srv st ref).outcome = Except.ok room ∧
      (ref = room.room_id ∨ ref ∈ room.aliases)) ∧
    ∀ r', RemoteCall.join r' ∉ (joinOrGetRoom srv st ref).calls := by
  cases hget : dictGet st.rooms ref with
  | some room =>
    rw [joinOrGetRoom_hit srv st ref room hget]
    refine ⟨⟨room, rfl, Or.inl ?_⟩, by simp⟩
    exact hkeys (ref, room) (dictGet_mem st.rooms ref room hget)
  | none =>
    have hwit : ∃ p ∈ st.rooms, ref ∈ visibleAliases srv st.aliasesFetchedFor p.2 := by
      rcases hreach with h | h
      · rw [hget] at h
        simp at h
      · exact h
    have hfound := scanRooms_complete srv ref st.rooms st.aliasesFetchedFor hkeys hnodup hwit
    cases hres : (scanRooms srv ref st.rooms st.aliasesFetchedFor).found with
    | none =>
      rw [hres] at hfound
      simp at hfound
    | some room =>
      rw [joinOrGetRoom_found srv st ref room hget hres]
      refine ⟨⟨room, rfl, Or.inr (scanRooms_found_aliases srv ref _ _ room hres)⟩, ?_⟩
      intro r' hc
      exact scanRooms_no_join srv ref st.rooms st.aliasesFetchedFor r' hc

theorem joinOrGetRoom_join_count (srv : Server) (st : ResolverState) (ref : String) :
    (joinOrGetRoom srv st ref).calls.countP (fun c => c = RemoteCall.join ref) ≤ 1 := by
  have h0 : ∀ a ∈ (scanRooms srv ref st.rooms st.aliasesFetchedFor).calls,
      ¬ (a = RemoteCall.join ref) :=
    fun a ha hpa => scanRooms_no_join srv ref st.rooms st.aliasesFetchedFor ref (hpa ▸ ha)
  have hz : (scanRooms srv ref st.rooms st.aliasesFetchedFor).calls.countP
      (fun c => c = RemoteCall.join ref) = 0 := by
    rw [List.countP_eq_zero]
    intro a ha
    simp only [decide_eq_true_eq]
    exact h0 a ha
  cases hget : dictGet st.rooms ref with
  | some room =>
    rw [joinOrGetRoom_hit srv st ref room hget]
    simp
  | none =>
    cases hres : (scanRooms srv ref st.rooms st.aliasesFetchedFor).found with
    | some room =>
      rw [joinOrGetRoom_found srv st ref room hget hres]
      rw [hz]
      simp
    | none =>
      cases hj : srv.joinResult ref with
      | ok cid =>
        rw [joinOrGetRoom_join_ok srv st ref cid hget hres hj]
        rw [List.countP_append, hz]
        simp
      | error e =>
        rw [joinOrGetRoom_join_err srv st ref e hget hres hj]
        rw [List.countP_append, hz]
        simp

/-- Claim C2: a ref that is already reachable — the canonical id of a joined
room, or an alias of one — is resolved without any join call, and the room
returned is the reachable one; a join is issued only for unreachable refs;
and resolving the same (joinable, server-consistent) ref twice issues at
most one join in total. -/
theorem resolver_no_duplicate_join (srv : Server) (st : ResolverState) (ref : String)
    (hWF : StateWF srv st)
    (hcons : ∀ cid, srv.joinResult ref = Except.ok cid → ref ∈ srv.trueAliases cid)
    (hok : ∃ cid, srv.joinResult ref = Except.ok cid) :
    (Reachable srv st ref →
      (∃ room, (joinOrGetRoom srv st ref).outcome = Except.ok room ∧
        (ref = room.room_id ∨ ref ∈ room.aliases)) ∧
      ∀ r', RemoteCall.join r' ∉ (joinOrGetRoom srv st ref).calls) ∧
    (∀ r', RemoteCall.join r' ∈ (joinOrGetRoom srv st ref).calls →
      ¬ Reachable srv st ref) ∧
    ((joinOrGetRoom srv st ref).calls ++
        (joinOrGetRoom srv (joinOrGetRoom srv st ref).state ref).calls).countP
      (fun c => c = RemoteCall.join ref) ≤ 1 := by
  obtain ⟨hkeys, hnodup, hsub, hcache⟩ := hWF
  have hz : (scanRooms srv ref st.rooms st.aliasesFetchedFor).calls.countP
      (fun c => c = RemoteCall.join ref) = 0 := by
    rw [List.countP_eq_zero]
    intro a ha
    simp only [decide_eq_true_eq]
    intro hc
    exact scanRooms_no_join srv ref st.rooms st.aliasesFetchedFor ref (hc ▸ ha)
  have hnojoin_count : ∀ st' : ResolverState,
      (∀ p ∈ st'.rooms, p.1 = p.2.room_id) → (st'.rooms.map Prod.fst).Nodup →
      Reachable srv st' ref →
      (joinOrGetRoom srv st' ref).calls.countP (fun c => c = RemoteCall.join ref) = 0 := by
    intro st' hk hn hr
    rw [List.countP_eq_zero]
    intro a ha
    simp only [decide_eq_true_eq]
    intro hc
    exact (joinOrGetRoom_reachable srv st' ref hk hn hr).2 ref (hc ▸ ha)
  refine ⟨fun hreach => joinOrGetRoom_reachable srv st ref hkeys hnodup hreach, ?_, ?_⟩
  · intro r' hjoin hreach
    exact (joinOrGetRoom_reachable srv st ref hkeys hnodup hreach).2 r' hjoin
  · cases hget : dictGet st.rooms ref with
    | some room =>
      simp [joinOrGetRoom_hit srv st ref room hget]
    | none =>
      cases hres : (scanRooms srv ref st.rooms st.aliasesFetchedFor).found with
      | some room =>
        have heq := joinOrGetRoom_found srv st ref room hget hres
        have hk1 : ∀ p ∈ (scanRooms srv ref st.rooms st.aliasesFetchedFor).rooms,
            p.1 = p.2.room_id :=
          scanRooms_keysId srv ref st.rooms st.aliasesFetchedFor hkeys
        have hn1 : (((scanRooms srv ref st.rooms st.aliasesFetchedFor).rooms).map
            Prod.fst).Nodup := by
          rw [scanRooms_keys]
          exact hnodup
        obtain ⟨⟨k', hk'⟩, hfd⟩ :=
          scanRooms_found_mem srv ref st.rooms st.aliasesFetchedFor room hres
        have halias := scanRooms_found_aliases srv ref st.rooms st.aliasesFetchedFor room hres
        have hreach1 : Reachable srv
            ⟨(scanRooms srv ref st.rooms st.aliasesFetchedFor).rooms,
              (scanRooms srv ref st.rooms st.aliasesFetchedFor).fetched⟩ ref := by
          right
          refine ⟨(k', room), hk', ?_⟩
          simp only [visibleAliases]
          rw [if_pos hfd]
          exact halias
        have hc2 := hnojoin_count
          ⟨(scanRooms srv ref st.rooms st.aliasesFetchedFor).rooms,
            (scanRooms srv ref st.rooms st.aliasesFetchedFor).fetched⟩ hk1 hn1 hreach1
        simp only [heq]
        rw [List.countP_append, hz, hc2]
        simp
      | none =>
        obtain ⟨cid, hj⟩ := hok
        have heq := joinOrGetRoom_join_ok srv st ref cid hget hres hj
        have hrefmem : ref ∈ srv.trueAliases cid := hcons cid hj
        have hfresh : cid ∉ st.rooms.map Prod.fst := by
          intro hc
          obtain ⟨p, hp, hpk⟩ := List.mem_map.mp hc
          have hpid : p.2.room_id = cid := by
            rw [← hkeys p hp]
            exact hpk
          have hwit : ∃ q ∈ st.rooms, ref ∈ visibleAliases srv st.aliasesFetchedFor q.2 := by
            refine ⟨p, hp, ?_⟩
            simp only [visibleAliases]
            by_cases hpf : p.2.room_id ∈ st.aliasesFetchedFor
            · rw [if_pos hpf, hcache p hp hpf, hpid]
              exact hrefmem
            · rw [if_neg hpf, hpid]
              exact hrefmem
          have hcomp := scanRooms_complete srv ref st.rooms st.aliasesFetchedFor
            hkeys hnodup hwit
          rw [hres] at hcomp
          simp at hcomp
        have hkeysScan := scanRooms_keys srv ref st.rooms st.aliasesFetchedFor
        have hfreshScan :
            cid ∉ (scanRooms srv ref st.rooms st.aliasesFetchedFor).rooms.map Prod.fst := by
          rw [hkeysScan]
          exact hfresh
        have hfetchfresh : cid ∉ (scanRooms srv ref st.rooms st.aliasesFetchedFor).fetched := by
          intro hc
          rw [scanRooms_fetched_iff] at hc
          rcases hc with hc | hc
          · exact hfresh (hsub cid hc)
          · have hid := scanRooms_calls_ids srv ref st.rooms st.aliasesFetchedFor cid hc
            rw [← keys_eq_ids st.rooms hkeys] at hid
            exact hfresh hid
        have hins : dictInsert (scanRooms srv ref st.rooms st.aliasesFetchedFor).rooms cid
            ⟨cid, []⟩ =
            (scanRooms srv ref st.rooms st.aliasesFetchedFor).rooms ++ [(cid, ⟨cid, []⟩)] :=
          dictInsert_fresh cid ⟨cid, []⟩ _ hfreshScan
        have hk1 : ∀ p ∈ (scanRooms srv ref st.rooms st.aliasesFetchedFor).rooms ++
            [(cid, (⟨cid, []⟩ : Room))], p.1 = p.2.room_id := by
          intro p hp
          rcases List.mem_append.mp hp with h1 | h1
          · exact scanRooms_keysId srv ref st.rooms st.aliasesFetchedFor hkeys p h1
          · rw [List.mem_singleton.mp h1]
        have hn1 : (((scanRooms srv ref st.rooms st.aliasesFetchedFor).rooms ++
            [(cid, (⟨cid, []⟩ : Room))]).map Prod.fst).Nodup := by
          rw [List.map_append, hkeysScan]
          refine List.Nodup.append hnodup (by simp) ?_
          intro a ha hb
          simp only [List.map_cons, List.map_nil, List.mem_singleton] at hb
          rw [hb] at ha
          exact hfresh ha
        have hreach1 : Reachable srv
            ⟨(scanRooms srv ref st.rooms st.aliasesFetchedFor).rooms ++ [(cid, ⟨cid, []⟩)],
              (scanRooms srv ref st.rooms st.aliasesFetchedFor).fetched⟩ ref := by
          right
          refine ⟨(cid, ⟨cid, []⟩),
            List.mem_append_right _ (List.mem_singleton.mpr rfl), ?_⟩
          simp only [visibleAliases]
          rw [if_neg hfetchfresh]
          exact hrefmem
        have hc2 := hnojoin_count
          ⟨(scanRooms srv ref st.rooms st.aliasesFetchedFor).rooms ++ [(cid, ⟨cid, []⟩)],
            (scanRooms srv ref st.rooms st.aliasesFetchedFor).fetched⟩ hk1 hn1 hreach1
        simp only [heq, hins]
        rw [List.countP_append, List.countP_append, hz, hc2]
        simp

/-- Concrete homeserver for the C2 witness: one room `!r1:x` whose alias is
`#a:x`, which is also what joining `#a:x` resolves to. -/
def srvW : Server :=
  ⟨fun rid => if rid = "!r1:x" then ["#a:x"] else [],
   fun r => if r = "#a:x" then Except.ok "!r1:x" else Except.error ⟨404, "not found"⟩,
   fun _ _ => none⟩

/-- Concrete resolver state for the C2 witness: `!r1:x` already joined, no
aliases fetched yet. -/
def stW : ResolverState := ⟨[("!r1:x", ⟨"!r1:x", []⟩)], []⟩

/-- Witness for C2: the alias `#a:x` of the already-joined room `!r1:x` is
reachable, and resolving it twice issues at most one join in total. -/
theorem resolver_no_duplicate_join_witness :
    Reachable srvW stW "#a:x" ∧
    ((joinOrGetRoom srvW stW "#a:x").calls ++
        (joinOrGetRoom srvW (joinOrGetRoom srvW stW "#a:x").state "#a:x").calls).countP
      (fun c => c = RemoteCall.join "#a:x") ≤ 1 := by
  refine ⟨by decide, ?_⟩
  have hcons : ∀ cid, srvW.joinResult "#a:x" = Except.ok cid →
      "#a:x" ∈ srvW.trueAliases cid := by
    intro cid hc
    have hcid : "!r1:x" = cid := by
      simpa [srvW] using hc
    rw [← hcid]
    decide
  exact (resolver_no_duplicate_join srvW stW "#a:x"
    ⟨by decide, by decide, by decide, by decide⟩ hcons ⟨"!r1:x", by decide⟩).2.2

theorem joinOrGetRoom_fetch_spec (srv : Server) (st : ResolverState) (ref rid : String) :
    ((joinOrGetRoom srv st ref).calls.countP (fun c => c = RemoteCall.fetchAliases rid) ≤
      if rid ∈ st.aliasesFetchedFor then 0 else 1) ∧
    (rid ∈ st.aliasesFetchedFor →
      rid ∈ (joinOrGetRoom srv st ref).state.aliasesFetchedFor) ∧
    (RemoteCall.fetchAliases rid ∈ (joinOrGetRoom srv st ref).calls →
      rid ∈ (joinOrGetRoom srv st ref).state.aliasesFetchedFor) := by
  have hcount := scanRooms_fetch_count srv ref rid st.rooms st.aliasesFetchedFor
  have hiff := scanRooms_fetched_iff srv ref st.rooms st.aliasesFetchedFor rid
  have hjoinz : List.countP (fun c => c = RemoteCall.fetchAliases rid)
      [RemoteCall.join ref] = 0 := by
    simp
  cases hget : dictGet st.rooms ref with
  | some room =>
    rw [joinOrGetRoom_hit srv st ref room hget]
    refine ⟨by simp, fun h => h, by simp⟩
  | none =>
    cases hres : (scanRooms srv ref st.rooms st.aliasesFetchedFor).found with
    | some room =>
      rw [joinOrGetRoom_found srv st ref room hget hres]
      exact ⟨hcount, fun h => hiff.mpr (Or.inl h), fun h => hiff.mpr (Or.inr h)⟩
    | none =>
      cases hj : srv.joinResult ref with
      | ok cid =>
        rw [joinOrGetRoom_join_ok srv st ref cid hget hres hj]
        refine ⟨?_, fun h => hiff.mpr (Or.inl h), ?_⟩
        · rw [List.countP_append, hjoinz]
          simpa using hcount
        · intro h
          rcases List.mem_append.mp h with h1 | h1
          · exact hiff.mpr (Or.inr h1)
          · exact RemoteCall.noConfusion (List.mem_singleton.mp h1)
      | error e =>
        rw [joinOrGetRoom_join_err srv st ref e hget hres hj]
        refine ⟨?_, fun h => hiff.mpr (Or.inl h), ?_⟩
        · rw [List.countP_append, hjoinz]
          simpa using hcount
        · intro h
          rcases List.mem_append.mp h with h1 | h1
          · exact hiff.mpr (Or.inr h1)
          · exact RemoteCall.noConfusion (List.mem_singleton.mp h1)

/-- Claim C6: for any sequence of resolve calls, the remote alias fetch for
a given room id is performed at most once per process lifetime (and never
again once the id is in the fetched set), no matter how many refs are
resolved afterwards. -/
theorem alias_fetch_at_most_once (srv : Server) (st : ResolverState) (refs : List String)
    (rid : String) :
    (resolveSeq srv st refs).2.countP (fun c => c = RemoteCall.fetchAliases rid) ≤
      if rid ∈ st.aliasesFetchedFor then 0 else 1 := by
  induction refs generalizing st with
  | nil => simp [resolveSeq]
  | cons ref rest ih =>
    have hspec := joinOrGetRoom_fetch_spec srv st ref rid
    have hrec := ih (joinOrGetRoom srv st ref).state
    simp only [resolveSeq]
    rw [List.countP_append]
    by_cases hm : rid ∈ st.aliasesFetchedFor
    · rw [if_pos hm]
      have h1 := hspec.1
      rw [if_pos hm] at h1
      have hm1 := hspec.2.1 hm
      rw [if_pos hm1] at hrec
      omega
    · rw [if_neg hm]
      have h1 := hspec.1
      rw [if_neg hm] at h1
      by_cases hc1 : RemoteCall.fetchAliases rid ∈ (joinOrGetRoom srv st ref).calls
      · have hm1 := hspec.2.2 hc1
        rw [if_pos hm1] at hrec
        omega
      · have h1z : (joinOrGetRoom srv st ref).calls.countP
            (fun c => c = RemoteCall.fetchAliases rid) = 0 := by
          rw [List.countP_eq_zero]
          intro a ha
          simp only [decide_eq_true_eq]
          intro hc
          exact hc1 (hc ▸ ha)
        have h2 : (resolveSeq srv (joinOrGetRoom srv st ref).state rest).2.countP
            (fun c => c = RemoteCall.fetchAliases rid) ≤ 1 := by
          by_cases hx : rid ∈ (joinOrGetRoom srv st ref).state.aliasesFetchedFor
          · rw [if_pos hx] at hrec
            omega
          · rw [if_neg hx] at hrec
            exact hrec
        omega

/-- Concrete homeserver for the C9 example: joining `#good:x` succeeds with
canonical id `!gid:x`, joining anything else is rejected with 403, and
sending always succeeds. -/
def srvSend : Server :=
  ⟨fun _ => [],
   fun r => if r = "#good:x" then Except.ok "!gid:x" else Except.error ⟨403, "forbidden"⟩,
   fun _ _ => none⟩

/-- Claim C9: `_send_message` processes its targets in order and each target
is handled in its own try/except: (i) sending to a concatenation of target
lists is exactly sending to the first list and then to the second from the
resulting state — a failure among the first targets cannot abort the rest,
and the loop never raises; (ii) each target either delivers (a `send_text`
remote call and no log entry) or produces exactly one log entry that names
that target and the server error's code and content; (iii) concretely,
sending to `[validRoom, invalidRoom]` delivers to the valid room and only
logs the failure for the invalid one. -/
theorem send_message_isolation (srv : Server) (message : String) :
    (∀ (st : ResolverState) (l1 l2 : List String),
        sendMessage srv st message (l1 ++ l2) =
          ⟨(sendMessage srv (sendMessage srv st message l1).state message l2).state,
            (sendMessage srv st message l1).calls ++
              (sendMessage srv (sendMessage srv st message l1).state message l2).calls,
            (sendMessage srv st message l1).logs ++
              (sendMessage srv (sendMessage srv st message l1).state message l2).logs⟩) ∧
    (∀ (st : ResolverState) (t : String),
        ((sendOne srv st message t).logs = [] ∧
          ∃ room, (joinOrGetRoom srv st t).outcome = Except.ok room ∧
            RemoteCall.sendText room.room_id message ∈ (sendOne srv st message t).calls) ∨
        ∃ e : MatrixError, (sendOne srv st message t).logs = [⟨t, e.code, e.content⟩]) ∧
    sendMessage srvSend ⟨[], []⟩ "hello" ["#good:x", "#bad:x"] =
      ⟨⟨[("!gid:x", ⟨"!gid:x", []⟩)], ["!gid:x"]⟩,
        [RemoteCall.join "#good:x", RemoteCall.sendText "!gid:x" "hello",
          RemoteCall.fetchAliases "!gid:x", RemoteCall.join "#bad:x"],
        [⟨"#bad:x", 403, "forbidden"⟩]⟩ := by
  refine ⟨?_, ?_, by decide⟩
  · intro st l1 l2
    induction l1 generalizing st with
    | nil => simp [sendMessage]
    | cons t ts ih =>
      simp only [List.cons_append, sendMessage]
      rw [show ts.append l2 = ts ++ l2 from rfl, ih]
      simp [List.append_assoc]
  · intro st t
    cases hres : joinOrGetRoom srv st t with
    | mk outcome state calls =>
      cases outcome with
      | ok room =>
        cases hsr : srv.sendResult room.room_id message with
        | none =>
          left
          constructor
          · simp [sendOne, hres, hsr]
          · refine ⟨room, by rfl, ?_⟩
            simp [sendOne, hres, hsr]
        | some e =>
          right
          exact ⟨e, by simp [sendOne, hres, hsr]⟩
      | error e =>
        right
        exact ⟨e, by simp [sendOne, hres]⟩

/-- The Matrix homeserver's two login endpoints as `_login` uses them:
validation of a stored token for a user id (the `MatrixClient(token=…)`
constructor), and password login returning a freshly issued token
(`login_with_password`). -/
structure AuthServer : Type where
  tokenLogin : String → String → Except MatrixError Unit
  passwordLogin : String → String → Except MatrixError String

/-- The client handle `_login` returns, tagged by which strategy produced
it and carrying its session token. -/
inductive Client : Type where
  | viaToken : String → Client
  | viaPassword : String → Client
deriving DecidableEq

/-- Result of `_login`: the client or the propagated `MatrixRequestError`,
the in-memory `_auth_tokens` mapping afterwards, and every full-file
`save_json` write performed (each write persists the whole mapping). -/
structure LoginResult : Type where
  outcome : Except MatrixError Client
  authTokens : List (String × String)
  savedFiles : List (List (String × String))
deriving DecidableEq

/-- `MatrixBot._login_by_password`: attempt password login; on success store
the new token under the bot's id via `_store_auth_token` (one `save_json`
write of the whole mapping) and return the client; on failure re-raise. -/
def loginByPassword (srv : AuthServer) (mxId password : String)
    (tokens : List (String × String)) : LoginResult :=
  match srv.passwordLogin mxId password with
  | Except.error e => ⟨Except.error e, tokens, []⟩
  | Except.ok newTok =>
    ⟨Except.ok (Client.viaPassword newTok), dictInsert tokens mxId newTok,
      [dictInsert tokens mxId newTok]⟩

/-- `MatrixBot._login`: if a token is stored for the bot's id, try token
login first; a token rejection is only logged and falls through to password
login; without a client, try password login and let its error propagate. -/
def login (srv : AuthServer) (mxId password : String)
    (tokens : List (String × String)) : LoginResult :=
  match dictGet tokens mxId with
  | some tok =>
    match srv.tokenLogin tok mxId with
    | Except.ok _ => ⟨Except.ok (Client.viaToken tok), tokens, []⟩
    | Except.error _ => loginByPassword srv mxId password tokens
  | none => loginByPassword srv mxId password tokens

/-- Claim C8: when a stored token exists but is rejected, `_login` falls
back to password login; a successful password login returns an
authenticated client and performs exactly one token-store write, which
stores the new token under the configured identity; a failed password
login propagates the auth error (code and message) to the caller. -/
theorem login_password_fallback (srv : AuthServer) (mxId password tok : String)
    (tokens : List (String × String)) (e : MatrixError)
    (hstored : dictGet tokens mxId = some tok)
    (hrejected : srv.tokenLogin tok mxId = Except.error e) :
    (∀ newTok, srv.passwordLogin mxId password = Except.ok newTok →
      login srv mxId password tokens =
        ⟨Except.ok (Client.viaPassword newTok), dictInsert tokens mxId newTok,
          [dictInsert tokens mxId newTok]⟩ ∧
      dictGet (dictInsert tokens mxId newTok) mxId = some newTok) ∧
    (∀ e2, srv.passwordLogin mxId password = Except.error e2 →
      login srv mxId password tokens = ⟨Except.error e2, tokens, []⟩) := by
  constructor
  · intro newTok hpw
    constructor
    · simp only [login, hstored, hrejected, loginByPassword, hpw]
    · rw [dictGet_insert]
      simp
  · intro e2 hpw
    simp only [login, hstored, hrejected, loginByPassword, hpw]

/-- Witness for C8: a rejected stored token followed by a successful
password login yields the password client, the updated mapping, and
exactly one store write holding the new token. -/
theorem login_password_fallback_witness :
    login ⟨fun _ _ => Except.error ⟨401, "invalid token"⟩, fun _ _ => Except.ok "newtok"⟩
        "@bot:x" "pw" [("@bot:x", "oldtok")] =
      ⟨Except.ok (Client.viaPassword "newtok"), [("@bot:x", "newtok")],
        [[("@bot:x", "newtok")]]⟩ := by
  have h := (login_password_fallback
    ⟨fun _ _ => Except.error ⟨401, "invalid token"⟩, fun _ _ => Except.ok "newtok"⟩
    "@bot:x" "pw" "oldtok" [("@bot:x", "oldtok")] ⟨401, "invalid token"⟩
    (by decide) rfl).1 "newtok" rfl
  rw [h.1]
  decide
